import Mathlib

/-!
Verification of the LRU replacer in `src/rmdb/src/replacer/lru_replacer.cpp`.

The C++ state is
  * `LRUlist_`  : `std::list<frame_id_t>`, front = most recently made
    evictable, back = next victim;
  * `LRUhash_`  : `std::unordered_map<frame_id_t, std::list<frame_id_t>::iterator>`,
    mapping a frame id to the list node holding it;
  * `max_size_` : the capacity fixed at construction.

The embedding makes list-node identity explicit: every node carries a
`Nat` node id, allocated from the counter `nextNode`.  A stored iterator
is a stored node id, so `LRUhash` is an association list from frame id
to node id.  `pin` erases the node designated by the stored id (exactly
what erasing a `std::list` iterator does), not "the node containing the
frame" — the two coincide only when the structure's invariants hold,
which is part of what is proved below.

`victim(frame_id_t*)` is modelled with the caller's memory made
explicit: `cell` is the value stored at the caller's output location and
`ptr` is the final value of the callee's local copy of the pointer
argument (`some ()` = still pointing at the caller's cell, `none` =
null).  The C++ statement `frame_id = nullptr` reassigns that local
copy, so it sets `ptr := none` and leaves `cell` untouched; the C++
statement `*frame_id = LRUlist_.back()` writes the cell.
-/

/-- Frame identifier (`frame_id_t`, an integer type in the C++ source). -/
abbrev frame_id_t : Type := Int

/-- State of `LRUReplacer`: the recency list (with node identities), the
presence index, the capacity, and the node-id allocator. -/
structure LRUReplacer where
  LRUlist : List (Nat × frame_id_t)
  LRUhash : List (frame_id_t × Nat)
  max_size : Nat
  nextNode : Nat
deriving DecidableEq, Repr

/-- `LRUReplacer::LRUReplacer(size_t num_pages)`: empty structure with
`max_size_ = num_pages`. -/
def LRUReplacer.init (num_pages : Nat) : LRUReplacer :=
  { LRUlist := [], LRUhash := [], max_size := num_pages, nextNode := 0 }

/-- `LRUhash_.erase(key)`: returns the number of entries removed (0 or 1
for an `unordered_map`) together with the map with that key removed. -/
def hashEraseKey (h : List (frame_id_t × Nat)) (f : frame_id_t) :
    Nat × List (frame_id_t × Nat) :=
  (h.countP (fun p => p.1 == f), h.filter (fun p => p.1 != f))

/-- `LRUhash_[key] = value`: insert-or-assign. -/
def hashInsert (h : List (frame_id_t × Nat)) (f : frame_id_t) (v : Nat) :
    List (frame_id_t × Nat) :=
  (f, v) :: h.filter (fun p => p.1 != f)

/-- `LRUhash_.find(key)`: the stored node id, when the key is present. -/
def hashFind (h : List (frame_id_t × Nat)) (f : frame_id_t) : Option Nat :=
  (h.find? (fun p => p.1 == f)).map Prod.snd

/-- Result of `LRUReplacer::victim(frame_id_t* frame_id)`: the boolean
return value, the final value of the local pointer parameter, the final
content of the caller's output variable, and the new replacer state. -/
structure VictimOut where
  found : Bool
  ptr : Option Unit
  cell : frame_id_t
  state : LRUReplacer
deriving DecidableEq, Repr

/-- `LRUReplacer::victim`: if the list is empty, set the local pointer
copy to null and return `false`; otherwise write the back of the list
through the pointer, erase that frame from the hash — returning `false`
without popping if the erase removed nothing — then pop the back and
return `true`. -/
def LRUReplacer.victim (s : LRUReplacer) (cell : frame_id_t) : VictimOut :=
  if h : s.LRUlist = [] then
    { found := false, ptr := none, cell := cell, state := s }
  else
    let f := (s.LRUlist.getLast h).2
    let e := hashEraseKey s.LRUhash f
    if e.1 = 0 then
      { found := false, ptr := some (), cell := f, state := { s with LRUhash := e.2 } }
    else
      { found := true, ptr := some (), cell := f,
        state := { s with LRUhash := e.2, LRUlist := s.LRUlist.dropLast } }

/-- `LRUReplacer::pin`: look the frame up in the hash; if present, erase
its hash entry and erase the list node designated by the stored
iterator (node id). -/
def LRUReplacer.pin (s : LRUReplacer) (f : frame_id_t) : LRUReplacer :=
  match hashFind s.LRUhash f with
  | none => s
  | some nid =>
      { s with LRUhash := (hashEraseKey s.LRUhash f).2,
               LRUlist := s.LRUlist.eraseP (fun p => p.1 == nid) }

/-- `LRUReplacer::unpin`: no-op when the list is at capacity or the frame
already occurs in the list; otherwise push a fresh node at the front and
record it in the hash. -/
def LRUReplacer.unpin (s : LRUReplacer) (f : frame_id_t) : LRUReplacer :=
  if s.max_size ≤ s.LRUlist.length then s
  else if s.LRUlist.any (fun p => p.2 == f) then s
  else
    { s with LRUlist := (s.nextNode, f) :: s.LRUlist,
             LRUhash := hashInsert s.LRUhash f s.nextNode,
             nextNode := s.nextNode + 1 }

/-- `LRUReplacer::Size`: the length of the recency list. -/
def LRUReplacer.Size (s : LRUReplacer) : Nat := s.LRUlist.length

/-- One call of the replacer's interface, for operation sequences. -/
inductive Op where
  | victim : Op
  | pin : frame_id_t → Op
  | unpin : frame_id_t → Op
  | size : Op
deriving DecidableEq, Repr

/-- The state transition of one call (`Size` and the value read by a
discarded `victim` output do not affect the state). -/
def applyOp (s : LRUReplacer) : Op → LRUReplacer
  | .victim => (s.victim 0).state
  | .pin f => s.pin f
  | .unpin f => s.unpin f
  | .size => s

/-- Run a sequence of calls left to right. -/
def runOps (s : LRUReplacer) (ops : List Op) : LRUReplacer :=
  ops.foldl applyOp s

/-- Perform `n` consecutive `victim` calls, collecting each call's
(return value, output frame) pair and the final state. -/
def victimSeq (s : LRUReplacer) : Nat → List (Bool × frame_id_t) × LRUReplacer
  | 0 => ([], s)
  | Nat.succ n =>
      let r := s.victim 0
      let rest := victimSeq r.state n
      ((r.found, r.cell) :: rest.1, rest.2)

/-! ## Basic characterizations -/

/-- Zero evictable frames means the recency list is `[]`. -/
lemma size_zero_iff (s : LRUReplacer) : s.Size = 0 ↔ s.LRUlist = [] :=
  List.length_eq_zero

/-- The duplicate scan in `unpin` succeeds exactly when the frame occurs
in the recency list. -/
lemma any_frame_eq (l : List (Nat × frame_id_t)) (f : frame_id_t) :
    (l.any (fun p => p.2 == f) = true) ↔ f ∈ l.map Prod.snd := by
  rw [List.any_eq_true]
  constructor
  · rintro ⟨p, hp, hb⟩
    exact List.mem_map.mpr ⟨p, hp, by simpa using hb⟩
  · intro h
    obtain ⟨p, hp, he⟩ := List.mem_map.mp h
    exact ⟨p, hp, by simpa using he⟩

/-- After erasing a key from the hash, a lookup of that key fails. -/
lemma hashFind_eraseKey_self (h : List (frame_id_t × Nat)) (f : frame_id_t) :
    hashFind (hashEraseKey h f).2 f = none := by
  have hfind : (List.filter (fun p => p.1 != f) h).find? (fun p => p.1 == f)
      = none := by
    rw [List.find?_eq_none]
    intro p hp
    have h2 := (List.mem_filter.mp hp).2
    rw [bne_iff_ne] at h2
    simpa using h2
  simp [hashFind, hashEraseKey, hfind]

/-- C4: victim on a replacer with zero evictable frames returns `false`
and leaves the whole replacer state unchanged. -/
theorem C4_empty_victim_no_mutation (s : LRUReplacer) (cell : frame_id_t)
    (h : s.Size = 0) :
    (s.victim cell).found = false ∧ (s.victim cell).state = s := by
  have h0 : s.LRUlist = [] := (size_zero_iff s).mp h
  simp [LRUReplacer.victim, h0]

/-- Witness for C4 at a fresh replacer of capacity 2. -/
theorem C4_witness :
    ((LRUReplacer.init 2).victim 7).found = false ∧
      ((LRUReplacer.init 2).victim 7).state = LRUReplacer.init 2 :=
  C4_empty_victim_no_mutation (LRUReplacer.init 2) 7 (by decide)

/-- C10: when victim finds no frame, it writes nothing through the
caller's output location (`cell` keeps its prior value); the
`frame_id = nullptr` assignment only nulls the callee's local copy of
the pointer. -/
theorem C10_no_output_write (s : LRUReplacer) (cell : frame_id_t)
    (h : s.Size = 0) :
    (s.victim cell).cell = cell ∧ (s.victim cell).ptr = none := by
  have h0 : s.LRUlist = [] := (size_zero_iff s).mp h
  simp [LRUReplacer.victim, h0]

/-- Witness for C10: the caller's variable holding 42 still holds 42. -/
theorem C10_witness :
    ((LRUReplacer.init 2).victim 42).cell = 42 ∧
      ((LRUReplacer.init 2).victim 42).ptr = none :=
  C10_no_output_write (LRUReplacer.init 2) 42 (by decide)

/-- C5: unpin inserts at the head and records the index entry exactly
when the frame is untracked and the list is below capacity; otherwise it
is a silent no-op (the operation is a total function, so it never raises
an error). -/
theorem C5_unpin_guard_characterization (s : LRUReplacer) (f : frame_id_t) :
    (f ∉ s.LRUlist.map Prod.snd ∧ s.LRUlist.length < s.max_size →
      s.unpin f = { s with LRUlist := (s.nextNode, f) :: s.LRUlist,
                           LRUhash := hashInsert s.LRUhash f s.nextNode,
                           nextNode := s.nextNode + 1 }) ∧
    (f ∈ s.LRUlist.map Prod.snd ∨ s.max_size ≤ s.LRUlist.length →
      s.unpin f = s) := by
  constructor
  · rintro ⟨hmem, hlen⟩
    rw [LRUReplacer.unpin, if_neg (by omega), if_neg ?_]
    intro hany
    exact hmem ((any_frame_eq _ _).mp hany)
  · rintro (hmem | hlen)
    · rw [LRUReplacer.unpin]
      by_cases hc : s.max_size ≤ s.LRUlist.length
      · rw [if_pos hc]
      · rw [if_neg hc, if_pos ((any_frame_eq _ _).mpr hmem)]
    · rw [LRUReplacer.unpin, if_pos hlen]

/-- Witness for C5: on the state with only frame 3 tracked (capacity 2),
unpin 4 inserts at the head, while unpin 3 is a no-op. -/
theorem C5_witness :
    ((⟨[(0, 3)], [(3, 0)], 2, 1⟩ : LRUReplacer).unpin 4 =
      { LRUlist := [(1, 4), (0, 3)], LRUhash := hashInsert [(3, 0)] 4 1,
        max_size := 2, nextNode := 2 }) ∧
    ((⟨[(0, 3)], [(3, 0)], 2, 1⟩ : LRUReplacer).unpin 3 =
      ⟨[(0, 3)], [(3, 0)], 2, 1⟩) :=
  ⟨(C5_unpin_guard_characterization _ 4).1 ⟨by decide, by decide⟩,
   (C5_unpin_guard_characterization _ 3).2 (Or.inl (by decide))⟩

/-- C6: pin is idempotent, unpin is idempotent (with no intervening
pin), and pin of an untracked frame is a no-op (and, being total, never
fails). -/
theorem C6_idempotence (s : LRUReplacer) (f : frame_id_t) :
    (s.pin f).pin f = s.pin f ∧ (s.unpin f).unpin f = s.unpin f ∧
    (hashFind s.LRUhash f = none → s.pin f = s) := by
  refine ⟨?_, ?_, fun h => by simp only [LRUReplacer.pin, h]⟩
  · cases hf : hashFind s.LRUhash f with
    | none =>
        have h1 : s.pin f = s := by simp only [LRUReplacer.pin, hf]
        rw [h1, h1]
    | some nid =>
        have h1 : s.pin f =
            { s with LRUhash := (hashEraseKey s.LRUhash f).2,
                     LRUlist := s.LRUlist.eraseP (fun p => p.1 == nid) } := by
          simp only [LRUReplacer.pin, hf]
        rw [h1]
        simp only [LRUReplacer.pin, hashFind_eraseKey_self]
  · by_cases hc : s.max_size ≤ s.LRUlist.length
    · have h1 : s.unpin f = s := by rw [LRUReplacer.unpin, if_pos hc]
      rw [h1, h1]
    · by_cases hm : s.LRUlist.any (fun p => p.2 == f) = true
      · have h1 : s.unpin f = s := by
          rw [LRUReplacer.unpin, if_neg hc, if_pos hm]
        rw [h1, h1]
      · have h1 : s.unpin f =
            { s with LRUlist := (s.nextNode, f) :: s.LRUlist,
                     LRUhash := hashInsert s.LRUhash f s.nextNode,
                     nextNode := s.nextNode + 1 } := by
          rw [LRUReplacer.unpin, if_neg hc, if_neg hm]
        rw [h1]
        rw [LRUReplacer.unpin]
        split
        · rfl
        · simp

/-- Witness for C6 on a fresh replacer of capacity 2 and frame 5. -/
theorem C6_witness :
    ((LRUReplacer.init 2).pin 5).pin 5 = (LRUReplacer.init 2).pin 5 ∧
    ((LRUReplacer.init 2).unpin 5).unpin 5 = (LRUReplacer.init 2).unpin 5 ∧
    (LRUReplacer.init 2).pin 5 = LRUReplacer.init 2 :=
  ⟨(C6_idempotence _ 5).1, (C6_idempotence _ 5).2.1,
   (C6_idempotence _ 5).2.2 (by decide)⟩

/-! ## Branch equations for the three mutating operations -/

/-- Unpin when the list already holds the frame is a no-op. -/
lemma unpin_eq_dup (s : LRUReplacer) (f : frame_id_t)
    (h : f ∈ s.LRUlist.map Prod.snd) : s.unpin f = s := by
  rw [LRUReplacer.unpin]
  by_cases hc : s.max_size ≤ s.LRUlist.length
  · rw [if_pos hc]
  · rw [if_neg hc, if_pos ((any_frame_eq _ _).mpr h)]

/-- Unpin at capacity is a no-op. -/
lemma unpin_eq_full (s : LRUReplacer) (f : frame_id_t)
    (h : s.max_size ≤ s.LRUlist.length) : s.unpin f = s := by
  rw [LRUReplacer.unpin, if_pos h]

/-- Unpin with both guards passing pushes a fresh node at the front. -/
lemma unpin_eq_push (s : LRUReplacer) (f : frame_id_t)
    (h1 : ¬ s.max_size ≤ s.LRUlist.length)
    (h2 : f ∉ s.LRUlist.map Prod.snd) :
    s.unpin f = { s with LRUlist := (s.nextNode, f) :: s.LRUlist,
                         LRUhash := hashInsert s.LRUhash f s.nextNode,
                         nextNode := s.nextNode + 1 } := by
  rw [LRUReplacer.unpin, if_neg h1, if_neg ?_]
  intro hany
  exact h2 ((any_frame_eq _ _).mp hany)

/-- Pin of a frame absent from the hash is a no-op. -/
lemma pin_eq_none (s : LRUReplacer) (f : frame_id_t)
    (h : hashFind s.LRUhash f = none) : s.pin f = s := by
  simp only [LRUReplacer.pin, h]

/-- Pin of a tracked frame erases the hash entry and the designated node. -/
lemma pin_eq_some (s : LRUReplacer) (f : frame_id_t) (nid : Nat)
    (h : hashFind s.LRUhash f = some nid) :
    s.pin f = { s with LRUhash := (hashEraseKey s.LRUhash f).2,
                       LRUlist := s.LRUlist.eraseP (fun p => p.1 == nid) } := by
  simp only [LRUReplacer.pin, h]

/-- Victim on the empty list takes the early-return branch. -/
lemma victim_eq_empty (s : LRUReplacer) (cell : frame_id_t)
    (h : s.LRUlist = []) :
    s.victim cell = { found := false, ptr := none, cell := cell, state := s } := by
  simp [LRUReplacer.victim, h]

/-- Victim when the hash erase removes nothing: the defensive branch,
returning `false` after having written the back frame through the
pointer, without popping the list. -/
lemma victim_eq_notfound (s : LRUReplacer) (cell : frame_id_t)
    (h : s.LRUlist ≠ [])
    (hc : (hashEraseKey s.LRUhash (s.LRUlist.getLast h).2).1 = 0) :
    s.victim cell =
      { found := false, ptr := some (), cell := (s.LRUlist.getLast h).2,
        state := { s with
          LRUhash := (hashEraseKey s.LRUhash (s.LRUlist.getLast h).2).2 } } := by
  simp [LRUReplacer.victim, h, hc]

/-- Victim in the successful branch pops the back and erases its hash key. -/
lemma victim_eq_found (s : LRUReplacer) (cell : frame_id_t)
    (h : s.LRUlist ≠ [])
    (hc : (hashEraseKey s.LRUhash (s.LRUlist.getLast h).2).1 ≠ 0) :
    s.victim cell =
      { found := true, ptr := some (), cell := (s.LRUlist.getLast h).2,
        state := { s with
          LRUhash := (hashEraseKey s.LRUhash (s.LRUlist.getLast h).2).2,
          LRUlist := s.LRUlist.dropLast } } := by
  simp [LRUReplacer.victim, h, hc]

/-! ## Hash and list helper lemmas -/

/-- Membership in the hash after erasing a key. -/
lemma mem_hashEraseKey (h : List (frame_id_t × Nat)) (f g : frame_id_t)
    (m : Nat) : (g, m) ∈ (hashEraseKey h f).2 ↔ (g, m) ∈ h ∧ g ≠ f := by
  simp [hashEraseKey, List.mem_filter]

/-- Membership in the hash after an insert-or-assign. -/
lemma mem_hashInsert (h : List (frame_id_t × Nat)) (f : frame_id_t) (v : Nat)
    (g : frame_id_t) (m : Nat) :
    (g, m) ∈ hashInsert h f v ↔ (g = f ∧ m = v) ∨ ((g, m) ∈ h ∧ g ≠ f) := by
  simp [hashInsert, List.mem_filter, Prod.ext_iff]

/-- The erase count is positive when the key is present. -/
lemma hashEraseKey_count_pos (h : List (frame_id_t × Nat)) (f : frame_id_t)
    (hx : ∃ m, (f, m) ∈ h) : (hashEraseKey h f).1 ≠ 0 := by
  obtain ⟨m, hm⟩ := hx
  have hpos : 0 < h.countP (fun p => p.1 == f) :=
    List.countP_pos_iff.mpr ⟨(f, m), hm, by simp⟩
  simp only [hashEraseKey]
  omega

/-- A successful hash lookup returns a stored entry. -/
lemma hashFind_mem {h : List (frame_id_t × Nat)} {f : frame_id_t} {nid : Nat}
    (hf : hashFind h f = some nid) : (f, nid) ∈ h := by
  unfold hashFind at hf
  cases hfind : h.find? (fun p => p.1 == f) with
  | none => rw [hfind] at hf; simp at hf
  | some p =>
      rw [hfind] at hf
      simp only [Option.map_some', Option.some.injEq] at hf
      have hp := List.mem_of_find?_eq_some hfind
      have hpf := List.find?_some hfind
      have hpe : p = (f, nid) := by
        have h1 : p.1 = f := by simpa using hpf
        rw [← h1, ← hf]
      exact hpe ▸ hp

/-- When some entry holds the key, the lookup does not fail. -/
lemma hashFind_ne_none {h : List (frame_id_t × Nat)} {f : frame_id_t} {m : Nat}
    (hm : (f, m) ∈ h) : hashFind h f ≠ none := by
  intro hnone
  unfold hashFind at hnone
  rw [Option.map_eq_none'] at hnone
  rw [List.find?_eq_none] at hnone
  exact hnone (f, m) hm (by simp)

/-- Erasing the node with a given id, when node ids are distinct, keeps
exactly the elements whose id differs. -/
lemma mem_eraseP_fst (l : List (Nat × frame_id_t)) (nid : Nat)
    (hnd : (l.map Prod.fst).Nodup) (x : Nat × frame_id_t) :
    x ∈ l.eraseP (fun p => p.1 == nid) ↔ x ∈ l ∧ x.1 ≠ nid := by
  induction l with
  | nil => simp
  | cons a l ih =>
      rw [List.map_cons, List.nodup_cons] at hnd
      by_cases ha : a.1 = nid
      · rw [List.eraseP_cons_of_pos (by simp [ha])]
        constructor
        · intro hx
          refine ⟨List.mem_cons_of_mem _ hx, fun hx1 => ?_⟩
          exact hnd.1 (ha ▸ hx1 ▸ List.mem_map_of_mem Prod.fst hx)
        · rintro ⟨hx, hx1⟩
          rcases List.mem_cons.mp hx with rfl | hmem
          · exact absurd ha hx1
          · exact hmem
      · rw [List.eraseP_cons_of_neg (by simp [ha])]
        rw [List.mem_cons, ih hnd.2, List.mem_cons]
        constructor
        · rintro (rfl | ⟨hx, hne⟩)
          · exact ⟨Or.inl rfl, ha⟩
          · exact ⟨Or.inr hx, hne⟩
        · rintro ⟨rfl | hx, hne⟩
          · exact Or.inl rfl
          · exact Or.inr ⟨hx, hne⟩

/-- Distinct frames make the node id a function of the frame. -/
lemma snd_inj_of_nodup {l : List (Nat × frame_id_t)}
    (h : (l.map Prod.snd).Nodup) {m m' : Nat} {g : frame_id_t}
    (h1 : (m, g) ∈ l) (h2 : (m', g) ∈ l) : m = m' := by
  have := List.inj_on_of_nodup_map h h1 h2 rfl
  exact congrArg Prod.fst this

/-- Distinct node ids make the frame a function of the node id. -/
lemma fst_inj_of_nodup {l : List (Nat × frame_id_t)}
    (h : (l.map Prod.fst).Nodup) {m : Nat} {g g' : frame_id_t}
    (h1 : (m, g) ∈ l) (h2 : (m, g') ∈ l) : g = g' := by
  have := List.inj_on_of_nodup_map h h1 h2 rfl
  exact congrArg Prod.snd this

/-- Membership in `dropLast` of a duplicate-free non-empty list. -/
lemma mem_dropLast_iff {α : Type} {l : List α} (h : l ≠ []) (hnd : l.Nodup)
    (x : α) : x ∈ l.dropLast ↔ x ∈ l ∧ x ≠ l.getLast h := by
  have hdecomp := List.dropLast_append_getLast h
  have hlast_not : l.getLast h ∉ l.dropLast := by
    have hnd2 := hnd
    rw [← hdecomp, List.nodup_append] at hnd2
    intro hmem
    exact hnd2.2.2 hmem (List.mem_singleton_self _)
  constructor
  · intro hx
    refine ⟨(List.dropLast_sublist l).subset hx, fun hxe => ?_⟩
    exact hlast_not (hxe ▸ hx)
  · rintro ⟨hx, hne⟩
    rw [← hdecomp, List.mem_append] at hx
    rcases hx with h1 | h2
    · exact h1
    · exact absurd (List.mem_singleton.mp h2) hne

/-! ## The structural invariant of reachable states -/

/-- Invariant maintained by every operation: the list is within
capacity, frames and node ids are duplicate-free, the hash holds exactly
one entry per list node — keyed by the node's frame and designating that
node — and every node id is below the allocator counter. -/
structure RepInv (s : LRUReplacer) : Prop where
  hlen : s.LRUlist.length ≤ s.max_size
  hframes : (s.LRUlist.map Prod.snd).Nodup
  hnodes : (s.LRUlist.map Prod.fst).Nodup
  hhash : ∀ f nid, (f, nid) ∈ s.LRUhash ↔ (nid, f) ∈ s.LRUlist
  hfresh : ∀ p ∈ s.LRUlist, p.1 < s.nextNode

/-- A fresh replacer satisfies the invariant. -/
lemma inv_init (c : Nat) : RepInv (LRUReplacer.init c) := by
  refine ⟨?_, ?_, ?_, ?_, ?_⟩ <;> simp [LRUReplacer.init]

/-- Unpin preserves the invariant. -/
lemma inv_unpin (s : LRUReplacer) (f : frame_id_t) (hs : RepInv s) :
    RepInv (s.unpin f) := by
  by_cases h1 : s.max_size ≤ s.LRUlist.length
  · rw [unpin_eq_full s f h1]; exact hs
  · by_cases h2 : f ∈ s.LRUlist.map Prod.snd
    · rw [unpin_eq_dup s f h2]; exact hs
    · rw [unpin_eq_push s f h1 h2]
      refine ⟨?_, ?_, ?_, ?_, ?_⟩
      · simp only [List.length_cons]
        omega
      · simp only [List.map_cons, List.nodup_cons]
        exact ⟨h2, hs.hframes⟩
      · simp only [List.map_cons, List.nodup_cons]
        refine ⟨fun hmem => ?_, hs.hnodes⟩
        obtain ⟨p, hp, hep⟩ := List.mem_map.mp hmem
        have := hs.hfresh p hp
        omega
      · intro g m
        rw [mem_hashInsert]
        simp only [List.mem_cons]
        constructor
        · rintro (⟨rfl, rfl⟩ | ⟨hgm, hne⟩)
          · exact Or.inl rfl
          · exact Or.inr ((hs.hhash g m).mp hgm)
        · rintro (heq | hmem)
          · rw [Prod.mk.injEq] at heq
            exact Or.inl ⟨heq.2, heq.1⟩
          · refine Or.inr ⟨(hs.hhash g m).mpr hmem, fun hgf => ?_⟩
            exact h2 (hgf ▸ List.mem_map_of_mem Prod.snd hmem)
      · intro p hp
        rcases List.mem_cons.mp hp with rfl | hmem
        · simp
        · have := hs.hfresh p hmem
          simp only
          omega

/-- Pin preserves the invariant. -/
lemma inv_pin (s : LRUReplacer) (f : frame_id_t) (hs : RepInv s) :
    RepInv (s.pin f) := by
  cases hf : hashFind s.LRUhash f with
  | none => rw [pin_eq_none s f hf]; exact hs
  | some nid =>
      rw [pin_eq_some s f nid hf]
      have hmem_hash : (f, nid) ∈ s.LRUhash := hashFind_mem hf
      have hmem_list : (nid, f) ∈ s.LRUlist := (hs.hhash f nid).mp hmem_hash
      have herase := mem_eraseP_fst s.LRUlist nid hs.hnodes
      have hsub : List.Sublist (s.LRUlist.eraseP (fun p => p.1 == nid))
          s.LRUlist := List.eraseP_sublist _
      refine ⟨?_, ?_, ?_, ?_, ?_⟩
      · exact le_trans hsub.length_le hs.hlen
      · exact hs.hframes.sublist (hsub.map Prod.snd)
      · exact hs.hnodes.sublist (hsub.map Prod.fst)
      · intro g m
        rw [mem_hashEraseKey, hs.hhash g m, herase (m, g)]
        simp only
        constructor
        · rintro ⟨hmem, hne⟩
          refine ⟨hmem, fun hmn => ?_⟩
          exact hne (fst_inj_of_nodup hs.hnodes (hmn ▸ hmem) hmem_list)
        · rintro ⟨hmem, hne⟩
          refine ⟨hmem, fun hgf => ?_⟩
          exact hne (snd_inj_of_nodup hs.hframes (hgf ▸ hmem) hmem_list)
      · intro p hp
        exact hs.hfresh p (hsub.subset hp)

/-- Victim preserves the invariant. -/
lemma inv_victim (s : LRUReplacer) (cell : frame_id_t) (hs : RepInv s) :
    RepInv ((s.victim cell).state) := by
  by_cases h : s.LRUlist = []
  · rw [victim_eq_empty s cell h]; exact hs
  · have hback : s.LRUlist.getLast h ∈ s.LRUlist := List.getLast_mem h
    have hhash_mem :
        ((s.LRUlist.getLast h).2, (s.LRUlist.getLast h).1) ∈ s.LRUhash :=
      (hs.hhash _ _).mpr (by rw [Prod.mk.eta]; exact hback)
    have hc : (hashEraseKey s.LRUhash (s.LRUlist.getLast h).2).1 ≠ 0 :=
      hashEraseKey_count_pos _ _ ⟨_, hhash_mem⟩
    rw [victim_eq_found s cell h hc]
    have hlnd : s.LRUlist.Nodup := hs.hnodes.of_map
    have hdrop := mem_dropLast_iff h hlnd
    have hsub : List.Sublist s.LRUlist.dropLast s.LRUlist :=
      List.dropLast_sublist _
    refine ⟨?_, ?_, ?_, ?_, ?_⟩
    · exact le_trans hsub.length_le hs.hlen
    · exact hs.hframes.sublist (hsub.map Prod.snd)
    · exact hs.hnodes.sublist (hsub.map Prod.fst)
    · intro g m
      rw [mem_hashEraseKey, hs.hhash g m, hdrop (m, g)]
      constructor
      · rintro ⟨hmem, hne⟩
        refine ⟨hmem, fun hmg => ?_⟩
        exact hne (congrArg Prod.snd hmg)
      · rintro ⟨hmem, hne⟩
        refine ⟨hmem, fun hgf => ?_⟩
        apply hne
        have hfst : m = (s.LRUlist.getLast h).1 :=
          snd_inj_of_nodup hs.hframes (hgf ▸ hmem)
            (by rw [Prod.mk.eta]; exact hback)
        rw [hfst, hgf, Prod.mk.eta]
    · intro p hp
      exact hs.hfresh p (hsub.subset hp)

/-- `runOps` unfolds one call at a time. -/
lemma runOps_cons (s : LRUReplacer) (op : Op) (ops : List Op) :
    runOps s (op :: ops) = runOps (applyOp s op) ops := rfl

/-- Every single call preserves the invariant. -/
lemma inv_applyOp (s : LRUReplacer) (op : Op) (hs : RepInv s) :
    RepInv (applyOp s op) := by
  cases op with
  | victim => exact inv_victim s 0 hs
  | pin f => exact inv_pin s f hs
  | unpin f => exact inv_unpin s f hs
  | size => exact hs

/-- Every call sequence preserves the invariant. -/
lemma inv_runOps (s : LRUReplacer) (ops : List Op) (hs : RepInv s) :
    RepInv (runOps s ops) := by
  induction ops generalizing s with
  | nil => exact hs
  | cons op ops ih => exact ih _ (inv_applyOp s op hs)

/-- The capacity field is never written after construction. -/
lemma max_size_applyOp (s : LRUReplacer) (op : Op) :
    (applyOp s op).max_size = s.max_size := by
  cases op with
  | victim =>
      by_cases h : s.LRUlist = []
      · rw [applyOp, victim_eq_empty s 0 h]
      · by_cases hc : (hashEraseKey s.LRUhash (s.LRUlist.getLast h).2).1 = 0
        · rw [applyOp, victim_eq_notfound s 0 h hc]
        · rw [applyOp, victim_eq_found s 0 h hc]
  | pin f =>
      cases hf : hashFind s.LRUhash f with
      | none => rw [applyOp, pin_eq_none s f hf]
      | some nid => rw [applyOp, pin_eq_some s f nid hf]
  | unpin f =>
      by_cases h1 : s.max_size ≤ s.LRUlist.length
      · rw [applyOp, unpin_eq_full s f h1]
      · by_cases h2 : f ∈ s.LRUlist.map Prod.snd
        · rw [applyOp, unpin_eq_dup s f h2]
        · rw [applyOp, unpin_eq_push s f h1 h2]
  | size => rfl

/-- The capacity field after any call sequence. -/
lemma max_size_runOps (s : LRUReplacer) (ops : List Op) :
    (runOps s ops).max_size = s.max_size := by
  induction ops generalizing s with
  | nil => rfl
  | cons op ops ih => rw [runOps_cons, ih, max_size_applyOp]

/-! ## Claims about reachable states -/

/-- C2: after any finite call sequence on a fresh replacer of capacity
`c`, the number of evictable frames reported by `Size` is at most `c`. -/
theorem C2_capacity_bound (c : Nat) (ops : List Op) :
    (runOps (LRUReplacer.init c) ops).Size ≤ c := by
  have hs := inv_runOps (LRUReplacer.init c) ops (inv_init c)
  have hm : (runOps (LRUReplacer.init c) ops).max_size = c :=
    max_size_runOps (LRUReplacer.init c) ops
  exact le_of_le_of_eq hs.hlen hm

/-- C3: in every reachable state no frame identifier occurs twice in the
recency list, and unpin of an already-tracked frame leaves the state
unchanged (no second entry is added). -/
theorem C3_no_duplicate_frames (c : Nat) (ops : List Op) (f : frame_id_t) :
    ((runOps (LRUReplacer.init c) ops).LRUlist.map Prod.snd).Nodup ∧
    (f ∈ (runOps (LRUReplacer.init c) ops).LRUlist.map Prod.snd →
      (runOps (LRUReplacer.init c) ops).unpin f =
        runOps (LRUReplacer.init c) ops) := by
  refine ⟨(inv_runOps _ _ (inv_init c)).hframes, fun hmem => ?_⟩
  exact unpin_eq_dup _ f hmem

/-- Witness for C3: after unpin(2) on a capacity-1 replacer, the list is
duplicate-free and a second unpin(2) changes nothing. -/
theorem C3_witness :
    ((runOps (LRUReplacer.init 1) [Op.unpin 2]).LRUlist.map Prod.snd).Nodup ∧
    (runOps (LRUReplacer.init 1) [Op.unpin 2]).unpin 2 =
      runOps (LRUReplacer.init 1) [Op.unpin 2] :=
  ⟨(C3_no_duplicate_frames 1 [Op.unpin 2] 2).1,
   (C3_no_duplicate_frames 1 [Op.unpin 2] 2).2 (by decide)⟩

/-- C8: in every reachable state the index and the list agree exactly: an
index entry keyed by frame `f` exists precisely when a list node holds
`f`, and the entry designates that node (the node id it stores is the id
of the node whose content is `f`); consequently the index's key set
equals the set of frames in the list. -/
theorem C8_index_list_agreement (c : Nat) (ops : List Op) (f : frame_id_t)
    (nid : Nat) :
    ((f, nid) ∈ (runOps (LRUReplacer.init c) ops).LRUhash ↔
      (nid, f) ∈ (runOps (LRUReplacer.init c) ops).LRUlist) ∧
    (f ∈ (runOps (LRUReplacer.init c) ops).LRUhash.map Prod.fst ↔
      f ∈ (runOps (LRUReplacer.init c) ops).LRUlist.map Prod.snd) := by
  have hs := inv_runOps (LRUReplacer.init c) ops (inv_init c)
  refine ⟨hs.hhash f nid, ?_, ?_⟩
  · intro hmem
    obtain ⟨p, hp, he⟩ := List.mem_map.mp hmem
    have hp2 : (f, p.2) ∈ (runOps (LRUReplacer.init c) ops).LRUhash := by
      rw [← he, Prod.mk.eta]; exact hp
    exact List.mem_map_of_mem Prod.snd ((hs.hhash f p.2).mp hp2)
  · intro hmem
    obtain ⟨p, hp, he⟩ := List.mem_map.mp hmem
    have hp2 : (p.1, f) ∈ (runOps (LRUReplacer.init c) ops).LRUlist := by
      rw [← he, Prod.mk.eta]; exact hp
    exact List.mem_map_of_mem Prod.fst ((hs.hhash f p.1).mpr hp2)

/-- C9: in every reachable state with a non-empty recency list, victim
succeeds; the defensive branch — the index erase removing nothing, so
that victim returns `false` without popping the list — is never taken. -/
theorem C9_defensive_branch_unreachable (c : Nat) (ops : List Op)
    (cell : frame_id_t)
    (hne : (runOps (LRUReplacer.init c) ops).LRUlist ≠ []) :
    ((runOps (LRUReplacer.init c) ops).victim cell).found = true := by
  have hs := inv_runOps (LRUReplacer.init c) ops (inv_init c)
  have hback := List.getLast_mem hne
  have hhash_mem :
      (((runOps (LRUReplacer.init c) ops).LRUlist.getLast hne).2,
       ((runOps (LRUReplacer.init c) ops).LRUlist.getLast hne).1) ∈
        (runOps (LRUReplacer.init c) ops).LRUhash :=
    (hs.hhash _ _).mpr (by rw [Prod.mk.eta]; exact hback)
  have hc := hashEraseKey_count_pos _ _ ⟨_, hhash_mem⟩
  rw [victim_eq_found _ cell hne hc]

/-- Witness for C9: after unpin(4) on a capacity-1 replacer the list is
non-empty and victim succeeds. -/
theorem C9_witness :
    ((runOps (LRUReplacer.init 1) [Op.unpin 4]).victim 0).found = true :=
  C9_defensive_branch_unreachable 1 [Op.unpin 4] 0 (by decide)

/-! ## Pin removes eligibility until a later unpin (C7) -/

/-- Victim never grows the recency list. -/
lemma victim_state_sublist (s : LRUReplacer) (cell : frame_id_t) :
    List.Sublist (s.victim cell).state.LRUlist s.LRUlist := by
  by_cases h : s.LRUlist = []
  · rw [victim_eq_empty s cell h]
  · by_cases hc : (hashEraseKey s.LRUhash (s.LRUlist.getLast h).2).1 = 0
    · rw [victim_eq_notfound s cell h hc]
    · rw [victim_eq_found s cell h hc]
      exact List.dropLast_sublist _

/-- Pin never grows the recency list. -/
lemma pin_list_sublist (s : LRUReplacer) (f : frame_id_t) :
    List.Sublist (s.pin f).LRUlist s.LRUlist := by
  cases hf : hashFind s.LRUhash f with
  | none => rw [pin_eq_none s f hf]
  | some nid =>
      rw [pin_eq_some s f nid hf]
      exact List.eraseP_sublist _

/-- In an invariant state, pin(f) leaves no node holding f in the list. -/
lemma frames_pin_not_mem (s : LRUReplacer) (f : frame_id_t) (hs : RepInv s) :
    f ∉ (s.pin f).LRUlist.map Prod.snd := by
  cases hf : hashFind s.LRUhash f with
  | none =>
      rw [pin_eq_none s f hf]
      intro hmem
      obtain ⟨p, hp, hp2⟩ := List.mem_map.mp hmem
      have hp3 : (f, p.1) ∈ s.LRUhash := by
        refine (hs.hhash f p.1).mpr ?_
        rw [← hp2, Prod.mk.eta]
        exact hp
      exact hashFind_ne_none hp3 hf
  | some nid =>
      rw [pin_eq_some s f nid hf]
      intro hmem
      obtain ⟨p, hp, hp2⟩ := List.mem_map.mp hmem
      rw [mem_eraseP_fst s.LRUlist nid hs.hnodes p] at hp
      have hnid_list : (nid, f) ∈ s.LRUlist :=
        (hs.hhash f nid).mp (hashFind_mem hf)
      have hpl : (p.1, f) ∈ s.LRUlist := by
        rw [← hp2, Prod.mk.eta]; exact hp.1
      exact hp.2 (snd_inj_of_nodup hs.hframes hpl hnid_list)

/-- A frame outside the list stays outside under any call that is not an
unpin of that frame. -/
lemma frames_not_mem_applyOp (s : LRUReplacer) (f : frame_id_t) (op : Op)
    (hop : op ≠ Op.unpin f) (hf : f ∉ s.LRUlist.map Prod.snd) :
    f ∉ (applyOp s op).LRUlist.map Prod.snd := by
  cases op with
  | victim =>
      intro hmem
      exact hf (((victim_state_sublist s 0).map Prod.snd).subset hmem)
  | pin g =>
      intro hmem
      exact hf (((pin_list_sublist s g).map Prod.snd).subset hmem)
  | unpin g =>
      have hgf : g ≠ f := fun h => hop (by rw [h])
      by_cases h1 : s.max_size ≤ s.LRUlist.length
      · rw [applyOp, unpin_eq_full s g h1]; exact hf
      · by_cases h2 : g ∈ s.LRUlist.map Prod.snd
        · rw [applyOp, unpin_eq_dup s g h2]; exact hf
        · rw [applyOp, unpin_eq_push s g h1 h2]
          intro hmem
          simp only [List.map_cons, List.mem_cons] at hmem
          rcases hmem with heq | hmem
          · exact hgf heq.symm
          · exact hf hmem
  | size => exact hf

/-- A frame outside the list stays outside along any continuation that
contains no unpin of that frame. -/
lemma frames_not_mem_runOps (s : LRUReplacer) (f : frame_id_t)
    (ops : List Op) (hops : ∀ op ∈ ops, op ≠ Op.unpin f)
    (hf : f ∉ s.LRUlist.map Prod.snd) :
    f ∉ (runOps s ops).LRUlist.map Prod.snd := by
  induction ops generalizing s with
  | nil => exact hf
  | cons op ops ih =>
      exact ih _ (fun o ho => hops o (List.mem_cons_of_mem _ ho))
        (frames_not_mem_applyOp s f op (hops op (List.mem_cons_self _ _)) hf)

/-- A successful victim returns a frame taken from the recency list. -/
lemma victim_cell_mem_frames (s : LRUReplacer) (cell : frame_id_t)
    (hfound : (s.victim cell).found = true) :
    (s.victim cell).cell ∈ s.LRUlist.map Prod.snd := by
  by_cases h : s.LRUlist = []
  · rw [victim_eq_empty s cell h] at hfound
    simp at hfound
  · by_cases hc : (hashEraseKey s.LRUhash (s.LRUlist.getLast h).2).1 = 0
    · rw [victim_eq_notfound s cell h hc] at hfound
      simp at hfound
    · rw [victim_eq_found s cell h hc]
      exact List.mem_map_of_mem Prod.snd (List.getLast_mem h)

/-- C7: from any reachable state, once pin(f) has run, no later victim
call returns f as long as the intervening operations contain no
unpin(f). -/
theorem C7_pin_blocks_victim (c : Nat) (pre : List Op) (f : frame_id_t)
    (ops : List Op) (cell : frame_id_t)
    (hops : ∀ op ∈ ops, op ≠ Op.unpin f)
    (hfound : ((runOps ((runOps (LRUReplacer.init c) pre).pin f)
        ops).victim cell).found = true) :
    ((runOps ((runOps (LRUReplacer.init c) pre).pin f)
        ops).victim cell).cell ≠ f := by
  have hs : RepInv (runOps (LRUReplacer.init c) pre) :=
    inv_runOps _ _ (inv_init c)
  have h1 := frames_pin_not_mem (runOps (LRUReplacer.init c) pre) f hs
  have h2 := frames_not_mem_runOps _ f ops hops h1
  have h3 := victim_cell_mem_frames _ cell hfound
  intro heq
  rw [heq] at h3
  exact h2 h3

/-- Witness for C7: capacity 2, unpin(1) then unpin(2), then pin(1); the
next victim succeeds and does not return frame 1. -/
theorem C7_witness :
    ((runOps ((runOps (LRUReplacer.init 2)
        [Op.unpin 1, Op.unpin 2]).pin 1) []).victim 0).cell ≠ 1 :=
  C7_pin_blocks_victim 2 [Op.unpin 1, Op.unpin 2] 1 [] 0
    (by intro op h; simp at h) (by decide)

/-! ## LRU order (C1) -/

/-- The nodes created by unpinning the given frames in order, when the
allocator starts at `k`: consecutive node ids tagged onto the frames. -/
def tagFrom (k : Nat) : List frame_id_t → List (Nat × frame_id_t)
  | [] => []
  | u :: rest => (k, u) :: tagFrom (k + 1) rest

/-- The frames of the tagged list are the original frames. -/
lemma tagFrom_map_snd (k : Nat) (l : List frame_id_t) :
    (tagFrom k l).map Prod.snd = l := by
  induction l generalizing k with
  | nil => rfl
  | cons u rest ih => simp [tagFrom, ih]

/-- Filtering out an absent key leaves the hash unchanged. -/
lemma filter_keys_eq_self (h : List (frame_id_t × Nat)) (f : frame_id_t)
    (hk : f ∉ h.map Prod.fst) : h.filter (fun p => p.1 != f) = h := by
  rw [List.filter_eq_self]
  intro p hp
  rw [bne_iff_ne]
  intro hpf
  exact hk (hpf ▸ List.mem_map_of_mem Prod.fst hp)

/-- Running a block of unpins of distinct fresh frames, while capacity
allows, pushes the correspondingly tagged nodes in front of the list and
records them in the hash. -/
lemma runOps_unpins (s : LRUReplacer) (l : List frame_id_t)
    (hnd : l.Nodup)
    (hlen : s.LRUlist.length + l.length ≤ s.max_size)
    (hnew : ∀ u ∈ l, u ∉ s.LRUlist.map Prod.snd)
    (hkeys : ∀ u ∈ l, u ∉ s.LRUhash.map Prod.fst) :
    runOps s (l.map Op.unpin) =
      { LRUlist := (tagFrom s.nextNode l).reverse ++ s.LRUlist,
        LRUhash := ((tagFrom s.nextNode l).map Prod.swap).reverse ++ s.LRUhash,
        max_size := s.max_size,
        nextNode := s.nextNode + l.length } := by
  induction l generalizing s with
  | nil => simp [runOps, tagFrom]
  | cons u rest ih =>
      rw [List.map_cons, runOps_cons]
      have h1 : ¬ s.max_size ≤ s.LRUlist.length := by
        simp only [List.length_cons] at hlen
        omega
      have h2 : u ∉ s.LRUlist.map Prod.snd := hnew u (List.mem_cons_self _ _)
      have hins : hashInsert s.LRUhash u s.nextNode =
          (u, s.nextNode) :: s.LRUhash := by
        rw [hashInsert,
          filter_keys_eq_self s.LRUhash u (hkeys u (List.mem_cons_self _ _))]
      have happ : applyOp s (Op.unpin u) =
          { LRUlist := (s.nextNode, u) :: s.LRUlist,
            LRUhash := (u, s.nextNode) :: s.LRUhash,
            max_size := s.max_size,
            nextNode := s.nextNode + 1 } := by
        rw [show applyOp s (Op.unpin u) = s.unpin u from rfl,
          unpin_eq_push s u h1 h2, hins]
      rw [happ]
      rw [ih _ (List.nodup_cons.mp hnd).2
        (by simp only [List.length_cons] at hlen ⊢; omega)
        (by
          intro w hw
          simp only [List.map_cons, List.mem_cons]
          rintro (rfl | hmem)
          · exact (List.nodup_cons.mp hnd).1 hw
          · exact hnew w (List.mem_cons_of_mem _ hw) hmem)
        (by
          intro w hw
          simp only [List.map_cons, List.mem_cons]
          rintro (rfl | hmem)
          · exact (List.nodup_cons.mp hnd).1 hw
          · exact hkeys w (List.mem_cons_of_mem _ hw) hmem)]
      simp only [tagFrom, List.map_cons, List.reverse_cons, List.append_assoc,
        List.singleton_append, List.length_cons, LRUReplacer.mk.injEq,
        Prod.swap_prod_mk, true_and, and_true]
      omega

/-- Draining a replacer whose state is exactly a block of tagged nodes:
each victim call succeeds and returns the frames oldest-tag first,
leaving the structure empty. -/
lemma victimSeq_drain (l : List frame_id_t) (hnd : l.Nodup) (c m k : Nat) :
    victimSeq { LRUlist := (tagFrom k l).reverse,
                LRUhash := ((tagFrom k l).map Prod.swap).reverse,
                max_size := c, nextNode := m } l.length =
      (l.map (fun u => (true, u)),
       { LRUlist := [], LRUhash := [], max_size := c, nextNode := m }) := by
  induction l generalizing k with
  | nil => simp [victimSeq, tagFrom]
  | cons u rest ih =>
      have hlist : (tagFrom k (u :: rest)).reverse =
          (tagFrom (k + 1) rest).reverse ++ [(k, u)] := by
        simp [tagFrom]
      have hhash2 : ((tagFrom k (u :: rest)).map Prod.swap).reverse =
          ((tagFrom (k + 1) rest).map Prod.swap).reverse ++ [(u, k)] := by
        simp [tagFrom]
      rw [hlist, hhash2]
      have hkeys : u ∉ (((tagFrom (k + 1) rest).map Prod.swap).reverse).map
          Prod.fst := by
        rw [List.map_reverse, List.mem_reverse, List.map_map]
        rw [show List.map (Prod.fst ∘ Prod.swap) (tagFrom (k + 1) rest) =
          List.map Prod.snd (tagFrom (k + 1) rest) from rfl]
        rw [tagFrom_map_snd]
        exact (List.nodup_cons.mp hnd).1
      set S : LRUReplacer :=
        { LRUlist := (tagFrom (k + 1) rest).reverse ++ [(k, u)],
          LRUhash := ((tagFrom (k + 1) rest).map Prod.swap).reverse ++ [(u, k)],
          max_size := c, nextNode := m } with hS
      have hne : S.LRUlist ≠ [] := by simp [hS]
      have hlast : S.LRUlist.getLast hne = (k, u) := List.getLast_append _
      have hmemh : (u, k) ∈ S.LRUhash := by
        simp [hS]
      have hc : (hashEraseKey S.LRUhash (S.LRUlist.getLast hne).2).1 ≠ 0 := by
        rw [hlast]
        exact hashEraseKey_count_pos _ _ ⟨k, hmemh⟩
      have hvic := victim_eq_found S 0 hne hc
      have hdrop : S.LRUlist.dropLast = (tagFrom (k + 1) rest).reverse := by
        rw [hS]
        exact List.dropLast_concat ..
      show victimSeq S (rest.length + 1) = _
      rw [victimSeq]
      simp only [hvic, hlast, hdrop]
      have hstate2 : (hashEraseKey
          (((tagFrom (k + 1) rest).map Prod.swap).reverse ++ [(u, k)]) u).2 =
          ((tagFrom (k + 1) rest).map Prod.swap).reverse := by
        simp only [hashEraseKey, List.filter_append]
        rw [filter_keys_eq_self _ u hkeys]
        simp
      rw [hstate2]
      rw [ih (List.nodup_cons.mp hnd).2 (k + 1)]
      simp

/-- C1: on a fresh replacer of capacity `c`, after unpinning distinct
frames `u1, …, un` (`n ≤ c`) with no other intervening calls, `n` victim
calls all succeed and return `u1, …, un` in that order (oldest unpin
first), each removing the returned frame from both the list and the
index, so that the structure ends empty. -/
theorem C1_lru_eviction_order (c : Nat) (l : List frame_id_t)
    (hnd : l.Nodup) (hlen : l.length ≤ c) :
    victimSeq (runOps (LRUReplacer.init c) (l.map Op.unpin)) l.length =
      (l.map (fun u => (true, u)),
       { LRUlist := [], LRUhash := [], max_size := c,
         nextNode := l.length }) := by
  rw [runOps_unpins (LRUReplacer.init c) l hnd
    (by simp only [LRUReplacer.init]; simpa using hlen)
    (by simp [LRUReplacer.init])
    (by simp [LRUReplacer.init])]
  simp only [LRUReplacer.init, List.append_nil, Nat.zero_add]
  exact victimSeq_drain l hnd c l.length 0

/-- Witness for C1: capacity 3, unpins of 5, 7, 9; the three victims
return 5, 7, 9 in order and drain the structure. -/
theorem C1_witness :
    victimSeq (runOps (LRUReplacer.init 3)
        (([5, 7, 9] : List frame_id_t).map Op.unpin)) 3 =
      ([(true, 5), (true, 7), (true, 9)],
       { LRUlist := [], LRUhash := [], max_size := 3, nextNode := 3 }) := by
  have h := C1_lru_eviction_order 3 [5, 7, 9] (by decide) (by decide)
  simpa using h
